import Mathlib

/-!
Verification of the glide daemon core: route discovery and dispatch, the
command-execution adapter, the error taxonomy, the auth hook, the log
relay buffer and the path sanitizer.  TypeScript strings are modelled as
lists of characters; each definition is a shallow embedding of the
corresponding function in the source.
-/

/-- Strings of the TypeScript source, modelled as lists of characters. -/
abbrev Str := List Char

/-- Conversion from Lean string literals to the model type. -/
def str (s : String) : Str := s.data

/-- Characters in the printable ASCII range `\x20`–`\x7E` (the class kept by
the sanitization regexes `[^\x20-\x7E]`). -/
def isPrintableAscii (c : Char) : Bool := 0x20 ≤ c.toNat && c.toNat ≤ 0x7E

/-- Characters kept by the regex class `[^\x20-\x7E\n]` (printable ASCII or
newline). -/
def keepPrintNl (c : Char) : Bool := isPrintableAscii c || c == '\n'

/-- Whitespace removed by JavaScript `String.prototype.trim` (the ASCII
whitespace characters; the code never feeds it exotic Unicode whitespace). -/
def isJsWs (c : Char) : Bool :=
  c == ' ' || c == '\t' || c == '\n' || c == '\r' || c == '\x0b' || c == '\x0c'

/-- JavaScript `s.trim()`: strip leading and trailing whitespace. -/
def jsTrim (l : Str) : Str := ((l.dropWhile isJsWs).reverse.dropWhile isJsWs).reverse

/-- JavaScript `s.includes(pat)`: substring containment. -/
def hasSub : Str → Str → Bool
  | [], pat => pat.isEmpty
  | c :: rest, pat => pat.isPrefixOf (c :: rest) || hasSub rest pat

/-- JavaScript `s.replace(pat, rep)` with a plain string pattern: replace the
first occurrence only (the replacement strings used by the source contain no
`$` patterns). -/
def replaceFirst : Str → Str → Str → Str
  | [], pat, rep => if pat.isEmpty then rep else []
  | c :: rest, pat, rep =>
    if pat.isPrefixOf (c :: rest) then rep ++ (c :: rest).drop pat.length
    else c :: replaceFirst rest pat rep

/-- JavaScript `s.replace(ch, "")` with a single-character string pattern:
drop the first occurrence of the character. -/
def removeFirstChar (t : Char) : Str → Str
  | [] => []
  | c :: rest => if c == t then rest else c :: removeFirstChar t rest

/-- JavaScript `s.split(sep)` for a single-character separator. -/
def splitOnChar (sep : Char) : Str → List Str
  | [] => [[]]
  | c :: rest =>
    match splitOnChar sep rest with
    | [] => if c == sep then [[], []] else [[c]]
    | h :: t => if c == sep then [] :: h :: t else (c :: h) :: t

theorem length_dropWhile_le (p : Char → Bool) (l : List Char) :
    (l.dropWhile p).length ≤ l.length :=
  (List.dropWhile_sublist p).length_le

/-- Global replacement of the regex `\x1B\[[0-9;]*[a-zA-Z]` by the empty
string: after `ESC [`, a run of digits and semicolons followed by a letter is
removed; on a failed match attempt the scan advances by one character, as the
JavaScript regex engine does. -/
def stripCSI : Str → Str
  | [] => []
  | '\x1b' :: '[' :: rest2 =>
    match h : (rest2.dropWhile (fun c => c.isDigit || c == ';')) with
    | c :: tail => if c.isAlpha then stripCSI tail else '\x1b' :: stripCSI ('[' :: rest2)
    | [] => '\x1b' :: stripCSI ('[' :: rest2)
  | c :: rest => c :: stripCSI rest
termination_by l => l.length
decreasing_by
  all_goals simp_wf
  · have h2 : (c :: tail).length ≤ rest2.length := by
      rw [← h]; exact length_dropWhile_le _ _
    simp only [List.length_cons] at h2
    omega

/-- Global replacement of the regex `\.{2,}` by the empty string: every
maximal run of two or more consecutive dots is removed; single dots are
kept. -/
def removeDotRuns : Str → Str
  | [] => []
  | c :: rest =>
    if c == '.' then
      match rest with
      | [] => ['.']
      | c2 :: rest2 =>
        if c2 == '.' then removeDotRuns (rest2.dropWhile (· == '.'))
        else '.' :: removeDotRuns (c2 :: rest2)
    else c :: removeDotRuns rest
termination_by l => l.length
decreasing_by
  · have := length_dropWhile_le (· == '.') rest2
    simp only [List.length_cons]
    omega
  · simp [List.length_cons]
  · simp [List.length_cons]

theorem removeDotRuns_cons_eq (c : Char) (rest : Str) :
    removeDotRuns (c :: rest) =
      if c == '.' then
        match rest with
        | [] => ['.']
        | c2 :: rest2 =>
          if c2 == '.' then removeDotRuns (rest2.dropWhile (· == '.'))
          else '.' :: removeDotRuns (c2 :: rest2)
      else c :: removeDotRuns rest := by
  rw [removeDotRuns.eq_def]
  rfl

/-- Source `src/utils/index.ts`: `PathSanitizer` returns the path unchanged
unless it contains `".."`, in which case every run of two or more dots is
removed (`path.replace(/\.{2,}/g, "")`). -/
def PathSanitizer (path : Str) : Str :=
  if hasSub path (str "..") then removeDotRuns path else path

/-- Boolean check for an adjacent pair of dots, used to reason about
`".."`-freeness. -/
def containsDotDot : Str → Bool
  | c1 :: c2 :: rest => (c1 == '.' && c2 == '.') || containsDotDot (c2 :: rest)
  | _ => false

theorem beqChar_comm (a b : Char) : (a == b) = (b == a) := by
  by_cases h : a = b
  · subst h; rfl
  · simp [beq_eq_false_iff_ne, h, Ne.symm h]

theorem hasSub_dotdot_eq (l : Str) : hasSub l (str "..") = containsDotDot l := by
  induction l with
  | nil => rfl
  | cons c rest ih =>
    cases rest with
    | nil => simp [hasSub, str, List.isPrefixOf, containsDotDot]
    | cons c2 rest2 =>
      simp only [hasSub, str, List.isPrefixOf, containsDotDot] at *
      rw [ih]
      cases h1 : c == '.' <;> cases h2 : c2 == '.' <;>
        simp [beqChar_comm '.' c ▸ h1, beqChar_comm '.' c2 ▸ h2]

theorem containsDotDot_cons (c : Char) (l : Str) :
    containsDotDot (c :: l) =
      (((c == '.') && (l.headD ' ' == '.') && !l.isEmpty) || containsDotDot l) := by
  cases l with
  | nil => simp [containsDotDot]
  | cons a l2 => simp [containsDotDot]

theorem containsDotDot_removeDotRuns : ∀ l : Str, containsDotDot (removeDotRuns l) = false
  | [] => by simp [removeDotRuns, containsDotDot]
  | c :: rest => by
    by_cases hc : c == '.'
    · cases rest with
      | nil =>
        simp [removeDotRuns_cons_eq, hc, containsDotDot]
      | cons c2 rest2 =>
        by_cases hc2 : c2 == '.'
        · have ih := containsDotDot_removeDotRuns (rest2.dropWhile (· == '.'))
          simp [removeDotRuns_cons_eq, hc, hc2, ih]
        · have ih := containsDotDot_removeDotRuns (c2 :: rest2)
          have hun : removeDotRuns (c2 :: rest2) = c2 :: removeDotRuns rest2 := by
            rw [removeDotRuns_cons_eq]; simp [hc2]
          rw [removeDotRuns_cons_eq]
          simp only [hc, hc2, if_true, if_false, Bool.false_eq_true]
          rw [containsDotDot_cons, ih, hun]
          simp [hc2]
    · have ih := containsDotDot_removeDotRuns rest
      rw [removeDotRuns_cons_eq]
      simp only [hc, Bool.false_eq_true, if_false]
      rw [containsDotDot_cons, ih]
      cases hr : removeDotRuns rest with
      | nil => simp [hc]
      | cons a l2 => simp [hc]
termination_by l => l.length
decreasing_by
  all_goals simp_wf
  all_goals try omega
  all_goals exact lt_of_le_of_lt (length_dropWhile_le _ _) (by omega)

/-- C10: for every input, the output of `PathSanitizer` contains no
occurrence of the substring `".."` (every run of two or more consecutive
dots being removed by the replacement), and any input containing no `".."`
is returned unchanged. -/
theorem pathSanitizer_no_dotdot (l : Str) :
    hasSub (PathSanitizer l) (str "..") = false ∧
    (hasSub l (str "..") = false → PathSanitizer l = l) := by
  constructor
  · by_cases h : hasSub l (str "..") = true
    · rw [PathSanitizer, if_pos h, hasSub_dotdot_eq]
      exact containsDotDot_removeDotRuns l
    · rw [PathSanitizer, if_neg h]
      exact Bool.eq_false_iff.mpr h
  · intro h
    rw [PathSanitizer, if_neg (by simp [h])]

theorem pathSanitizer_no_dotdot_witness :
    hasSub (PathSanitizer (str "a/../../b")) (str "..") = false ∧
    PathSanitizer (str "a/b.txt") = str "a/b.txt" :=
  ⟨(pathSanitizer_no_dotdot (str "a/../../b")).1,
   (pathSanitizer_no_dotdot (str "a/b.txt")).2 (by decide)⟩

/-! ### Substring infrastructure -/

theorem hasSub_iff (pat : Str) : ∀ l : Str, (hasSub l pat = true ↔ ∃ a b, l = a ++ pat ++ b) := by
  intro l
  induction l with
  | nil =>
    simp only [hasSub, List.isEmpty_iff]
    constructor
    · intro h; exact ⟨[], [], by simp [h]⟩
    · rintro ⟨a, b, h⟩
      rcases List.append_eq_nil.mp (List.append_eq_nil.mp h.symm).1 with ⟨-, h2⟩
      exact h2
  | cons c rest ih =>
    simp only [hasSub, Bool.or_eq_true, List.isPrefixOf_iff_prefix, ih]
    constructor
    · rintro (⟨t, ht⟩ | ⟨a, b, h⟩)
      · exact ⟨[], t, by simp [← ht]⟩
      · exact ⟨c :: a, b, by simp [h]⟩
    · rintro ⟨a, b, h⟩
      cases a with
      | nil => exact Or.inl ⟨b, by simpa using h.symm⟩
      | cons c2 a2 =>
        simp only [List.cons_append, List.append_assoc] at h
        injection h with h1 h2
        exact Or.inr ⟨a2, b, by simpa using h2⟩

theorem hasSub_append (a pat b : Str) : hasSub (a ++ pat ++ b) pat = true :=
  (hasSub_iff pat _).mpr ⟨a, b, rfl⟩

theorem hasSub_cons_of (c : Char) {l pat : Str} (h : hasSub l pat = true) :
    hasSub (c :: l) pat = true := by simp [hasSub, h]

theorem hasSub_filter (p : Char → Bool) {l pat : Str} (hp : ∀ c ∈ pat, p c = true)
    (h : hasSub l pat = true) : hasSub (l.filter p) pat = true := by
  obtain ⟨a, b, rfl⟩ := (hasSub_iff pat l).mp h
  rw [List.filter_append, List.filter_append, List.filter_eq_self.mpr hp]
  exact hasSub_append ..

theorem length_le_of_hasSub {l pat : Str} (h : hasSub l pat = true) :
    pat.length ≤ l.length := by
  obtain ⟨a, b, rfl⟩ := (hasSub_iff pat l).mp h
  simp; omega

theorem stripCSI_eq_self : ∀ {l : Str}, '\x1b' ∉ l → stripCSI l = l
  | [], _ => by rw [stripCSI.eq_def]
  | c :: rest, h => by
    have hc : c ≠ '\x1b' := fun e => h (e ▸ List.mem_cons_self c rest)
    have hr : '\x1b' ∉ rest := fun m => h (List.mem_cons_of_mem _ m)
    rw [stripCSI.eq_def]
    split
    · rename_i x heq
      exact absurd heq (List.cons_ne_nil _ _)
    · rename_i rest2 heq
      injection heq with h1 h2
      exact absurd h1 hc
    · rename_i c2 rest2 heq
      injection heq with h1 h2
      subst h1; subst h2
      rw [stripCSI_eq_self hr]
termination_by l => l.length
decreasing_by
  simp [List.length_cons]

theorem dropWhile_append_mid (p : Char → Bool) (a : Str) {mid : Str} (b : Str)
    (hne : mid ≠ []) (hh : p (mid.headD ' ') = false) :
    List.dropWhile p (a ++ mid ++ b) = List.dropWhile p a ++ mid ++ b := by
  obtain ⟨h0, t0, rfl⟩ := List.exists_cons_of_ne_nil hne
  simp only [List.headD_cons] at hh
  induction a with
  | nil => simp [List.dropWhile_cons, hh]
  | cons c a2 ih =>
    by_cases hc : p c <;>
      simp only [List.cons_append, List.dropWhile_cons, hc, if_true, if_false,
        List.append_assoc] <;>
      simpa [List.append_assoc] using ih

theorem jsTrim_hasSub {l pat : Str} (hne : pat ≠ [])
    (hh : isJsWs (pat.headD ' ') = false)
    (hl : isJsWs (pat.reverse.headD ' ') = false)
    (h : hasSub l pat = true) : hasSub (jsTrim l) pat = true := by
  obtain ⟨a, b, rfl⟩ := (hasSub_iff pat l).mp h
  have h1 := dropWhile_append_mid isJsWs a b hne hh
  rw [jsTrim, h1]
  have h2 : (List.dropWhile isJsWs a ++ pat ++ b).reverse
      = b.reverse ++ pat.reverse ++ (List.dropWhile isJsWs a).reverse := by
    simp [List.reverse_append, List.append_assoc]
  rw [h2]
  have h3 := dropWhile_append_mid isJsWs b.reverse ((List.dropWhile isJsWs a).reverse)
    (by simp [hne]) hl
  rw [h3]
  have h4 : (List.dropWhile isJsWs b.reverse ++ pat.reverse
        ++ (List.dropWhile isJsWs a).reverse).reverse
      = List.dropWhile isJsWs a ++ pat ++ (List.dropWhile isJsWs b.reverse).reverse := by
    simp [List.reverse_append, List.append_assoc]
  rw [h4]
  exact hasSub_append ..

theorem splitOnChar_ne_nil (sep : Char) (l : Str) : splitOnChar sep l ≠ [] := by
  cases l with
  | nil => simp [splitOnChar]
  | cons c rest =>
    rw [splitOnChar]
    split <;> split <;> simp

theorem splitOnChar_append_sepfree (sep : Char) {pat : Str}
    (hsep : ∀ c ∈ pat, (c == sep) = false) (t : Str) {h0 : Str} {t0 : List Str}
    (hsplit : splitOnChar sep t = h0 :: t0) :
    splitOnChar sep (pat ++ t) = (pat ++ h0) :: t0 := by
  induction pat with
  | nil => simpa using hsplit
  | cons p ps ih =>
    have hp : (p == sep) = false := hsep p (List.mem_cons_self _ _)
    have ih2 := ih (fun c hc => hsep c (List.mem_cons_of_mem _ hc))
    rw [List.cons_append, splitOnChar, ih2]
    simp [hp]

theorem hasSub_splitOnChar (sep : Char) {pat : Str}
    (hsep : ∀ c ∈ pat, (c == sep) = false) :
    ∀ l : Str, hasSub l pat = true → ∃ c ∈ splitOnChar sep l, hasSub c pat = true := by
  intro l
  induction l with
  | nil =>
    intro h
    refine ⟨[], by simp [splitOnChar], ?_⟩
    simp [hasSub] at h ⊢
    exact h
  | cons c rest ih =>
    intro h
    rw [hasSub, Bool.or_eq_true] at h
    rcases h with h | h
    · rw [List.isPrefixOf_iff_prefix] at h
      obtain ⟨t, ht⟩ := h
      obtain ⟨h0, t0, hsplit⟩ := List.exists_cons_of_ne_nil (splitOnChar_ne_nil sep t)
      refine ⟨pat ++ h0, ?_, ?_⟩
      · rw [← ht, splitOnChar_append_sepfree sep hsep t hsplit]
        exact List.mem_cons_self _ _
      · have he : pat ++ h0 = [] ++ pat ++ h0 := by simp
        rw [he]; exact hasSub_append ..
    · obtain ⟨ch, hmem, hch⟩ := ih h
      obtain ⟨h0, t0, hsplit⟩ := List.exists_cons_of_ne_nil (splitOnChar_ne_nil sep rest)
      rw [hsplit] at hmem
      rw [splitOnChar, hsplit]
      by_cases hc : c == sep
      · exact ⟨ch, by simp [hc]; right; simpa using hmem, hch⟩
      · rcases List.mem_cons.mp hmem with rfl | hmem2
        · exact ⟨c :: ch, by simp [hc], hasSub_cons_of c hch⟩
        · exact ⟨ch, by simp [hc]; right; exact hmem2, hch⟩

theorem replaceFirst_eq_self : ∀ {l : Str} (pat rep : Str), hasSub l pat = false →
    replaceFirst l pat rep = l
  | [], pat, rep, h => by
    rw [replaceFirst]
    rw [hasSub] at h
    simp [h]
  | c :: rest, pat, rep, h => by
    rw [hasSub, Bool.or_eq_false_iff] at h
    rw [replaceFirst, if_neg (by simp [h.1]), replaceFirst_eq_self pat rep h.2]

theorem hasSub_eq_false_of_missing {l pat : Str} {c : Char} (hc : c ∈ pat) (hl : c ∉ l) :
    hasSub l pat = false := by
  cases h : hasSub l pat
  · rfl
  · obtain ⟨a, b, rfl⟩ := (hasSub_iff pat l).mp h
    exact absurd (List.mem_append.mpr (Or.inl (List.mem_append.mpr (Or.inr hc)))) hl

/-! ### Error taxonomy and JSON values (src/types/Http.ts) -/

/-- JSON-like runtime values carried by bodies and `details` payloads. -/
inductive JVal where
  | str (s : Str)
  | num (n : Int)
  | bool (b : Bool)
  | arr (elems : List JVal)
  | obj (fields : List (Str × JVal))

/-- Source `src/types/Http.ts`: `HttpError` carries a status, a message and an
optional `details` payload.  The class extends `Error` without assigning
`this.name`, so reading `.name` on an instance yields the inherited
`Error.prototype.name`, which is the string `"Error"` (see `jsName`). -/
structure HttpError where
  status : Nat
  message : Str
  details : Option JVal

/-- JavaScript property lookup `e.name` on an `HttpError` instance: the class
never assigns `name`, so the prototype chain yields `Error.prototype.name`,
the constant string `"Error"`. -/
def HttpError.jsName (_ : HttpError) : Str := str "Error"

/-- Source `src/types/Http.ts`: `HttpResponse` produced by the success
constructors. -/
structure HttpResponse where
  status : Nat
  body : JVal

def Responses.Ok (b : JVal) : HttpResponse := ⟨200, b⟩

def Responses.Created (b : JVal) : HttpResponse := ⟨201, b⟩

def Responses.BadRequest (m : Str) (d : Option JVal) : HttpError := ⟨400, m, d⟩

def Responses.Unauthorized (m : Str) (d : Option JVal) : HttpError := ⟨401, m, d⟩

def Responses.Forbidden (m : Str) (d : Option JVal) : HttpError := ⟨403, m, d⟩

def Responses.NotFound (m : Str) (d : Option JVal) : HttpError := ⟨404, m, d⟩

def Responses.Conflict (m : Str) (d : Option JVal) : HttpError := ⟨409, m, d⟩

def Responses.InternalServerError (m : Str) (d : Option JVal) : HttpError := ⟨500, m, d⟩

def Responses.FromCode (status : Nat) (m : Str) (d : Option JVal) : HttpError := ⟨status, m, d⟩

/-! ### Command-execution adapter (src/services/Docker.service.ts) -/

/-- The literal whose presence in exec output signals a missing file. -/
def nsfd : Str := str "No such file or directory"

/-- Sanitization applied by `readFile` to the aggregated output:
`output.trim().replace(/�/g, "").replace(/[^\x20-\x7E\n]/g, "")`. -/
def sanitizeReadFile (output : Str) : Str :=
  ((jsTrim output).filter (fun c => !(c == '�'))).filter keepPrintNl

/-- Sanitization applied by `executeCommand`: strip ANSI CSI sequences, then
remove each of `\u0000`, `\u0002`, `\u0001`, `\u001e`, `\f`, `\u0011`. -/
def sanitizeExec (output : Str) : Str :=
  ((((((stripCSI output).filter (fun c => !(c == '\x00'))).filter
      (fun c => !(c == '\x02'))).filter (fun c => !(c == '\x01'))).filter
      (fun c => !(c == '\x1e'))).filter (fun c => !(c == '\x0c'))).filter
      (fun c => !(c == '\x11'))

/-- Source `DockerService.readFile`, as a function of a finished exec session
(exit code and aggregated output).  The source registers a `stream.on("exit")`
listener that would throw on a non-zero code, but dockerode exec streams emit
only `data`/`end`/`error`, and a throw inside a listener cannot reject the
awaited end promise, so the value returned to the caller depends only on the
aggregated output: the Not-Found substring check, then sanitization. -/
def readFileRun (exitCode : Int) (output : Str) : Except HttpError Str :=
  if hasSub output nsfd then Except.error (Responses.NotFound nsfd none)
  else Except.ok (sanitizeReadFile output)

/-- Source `DockerService.deleteFile`: substring check, raw output returned
(no sanitization on this path).  Exit code: see `readFileRun`. -/
def deleteFileRun (exitCode : Int) (output : Str) : Except HttpError Str :=
  if hasSub output nsfd then Except.error (Responses.NotFound nsfd none)
  else Except.ok output

/-- Source `DockerService.createFile`: substring check, raw output returned.
Exit code: see `readFileRun`. -/
def createFileRun (exitCode : Int) (output : Str) : Except HttpError Str :=
  if hasSub output nsfd then Except.error (Responses.NotFound nsfd none)
  else Except.ok output

/-- Source `DockerService.executeCommand`: substring check, then the CSI and
control-character stripping.  Exit code: see `readFileRun`. -/
def executeCommandRun (exitCode : Int) (output : Str) : Except HttpError Str :=
  if hasSub output nsfd then Except.error (Responses.NotFound nsfd none)
  else Except.ok (sanitizeExec output)

/-- Directory entry produced by `readDirectory` (`{ name, isDirectory }`). -/
structure FileEntry where
  name : Str
  isDirectory : Bool
deriving DecidableEq, Repr

/-- Insertion into a sorted list, used to model `Array.prototype.sort`. -/
def insertByLe {α : Type} (le : α → α → Bool) (x : α) : List α → List α
  | [] => [x]
  | y :: ys => if le x y then x :: y :: ys else y :: insertByLe le x ys

/-- Model of `Array.prototype.sort` with a consistent comparator: a sorted
permutation of the input (insertion sort; only the multiset of elements
matters for the theorems below). -/
def sortByLe {α : Type} (le : α → α → Bool) : List α → List α
  | [] => []
  | x :: xs => insertByLe le x (sortByLe le xs)

theorem mem_insertByLe {α : Type} (le : α → α → Bool) (x a : α) :
    ∀ l : List α, a ∈ insertByLe le x l ↔ a = x ∨ a ∈ l := by
  intro l
  induction l with
  | nil => simp [insertByLe]
  | cons y ys ih =>
    rw [insertByLe]
    split
    · simp
    · simp only [List.mem_cons, ih]
      tauto

theorem mem_sortByLe {α : Type} (le : α → α → Bool) (a : α) :
    ∀ l : List α, a ∈ sortByLe le l ↔ a ∈ l := by
  intro l
  induction l with
  | nil => simp [sortByLe]
  | cons x xs ih => rw [sortByLe, mem_insertByLe, ih]; simp

/-- Case-insensitive lexicographic order on ASCII names, modelling
`localeCompare(..., { sensitivity: "base" })` for the listing sort. -/
def strLeCI : Str → Str → Bool
  | [], _ => true
  | _ :: _, [] => false
  | x :: xs, y :: ys =>
    if x.toLower == y.toLower then strLeCI xs ys else decide (x.toLower < y.toLower)

/-- Source comparator of `readDirectory`: directories first, then
case-insensitive name order. -/
def entryLe (a b : FileEntry) : Bool :=
  if a.isDirectory && !b.isDirectory then true
  else if !a.isDirectory && b.isDirectory then false
  else strLeCI a.name b.name

/-- Per-line cleaning in `readDirectory`: strip non-printables (keeping
newline), strip CSI sequences, trim. -/
def cleanDirLine (item : Str) : Str := jsTrim (stripCSI (item.filter keepPrintNl))

/-- Source `readDirectory` entry construction: trailing `/` marks a
directory; the name is stripped of non-printable characters again. -/
def dirEntryOfLine (item : Str) : FileEntry :=
  let isDir := ['/'].isSuffixOf item
  let name := if isDir then item.dropLast else item
  ⟨name.filter isPrintableAscii, isDir⟩

/-- Source `readDirectory` parsing pipeline: split on newlines, clean each
line, drop empties and the synthetic `./` and `../` entries, build entries,
sort. -/
def parseDirListing (output : Str) : List FileEntry :=
  sortByLe entryLe
    (((((splitOnChar '\n' output).map cleanDirLine).filter
        (fun i => !i.isEmpty)).filter
        (fun i => !(i == str "./") && !(i == str "../"))).map dirEntryOfLine)

/-- Source `DockerService.readDirectory`: a null result when any parsed entry
name contains the Not-Found substring, the sorted listing otherwise.  Exit
code: see `readFileRun`. -/
def readDirectoryRun (exitCode : Int) (output : Str) : Option (List FileEntry) :=
  let files := parseDirListing output
  if (files.find? (fun f => hasSub f.name nsfd)).isSome then none else some files

theorem find?_isSome_of_mem {α : Type} (p : α → Bool) {x : α} :
    ∀ {l : List α}, x ∈ l → p x = true → (l.find? p).isSome = true := by
  intro l
  induction l with
  | nil => intro hm; cases hm
  | cons y ys ih =>
    intro hm hp
    rw [List.find?]
    rcases List.mem_cons.mp hm with rfl | hm2
    · rw [hp]; rfl
    · cases hy : p y
      · simpa using ih hm2 hp
      · rfl

theorem dirEntryOfLine_hasSub {item : Str} (h : hasSub item nsfd = true) :
    hasSub (dirEntryOfLine item).name nsfd = true := by
  rw [dirEntryOfLine]
  by_cases hd : ['/'].isSuffixOf item
  · simp only [hd, if_true]
    obtain ⟨a, b, hab⟩ := (hasSub_iff nsfd item).mp h
    obtain ⟨pre, hpre⟩ := List.isSuffixOf_iff_suffix.mp hd
    cases b with
    | nil =>
      exfalso
      have h1 : item.getLast? = some '/' := by
        rw [← hpre, List.getLast?_append_of_ne_nil pre (by simp)]
        rfl
      have h2 : item.getLast? = some 'y' := by
        rw [hab]
        simp only [List.append_nil]
        rw [List.getLast?_append_of_ne_nil a (by decide)]
        decide
      rw [h1] at h2
      simp at h2
    | cons bh bt =>
      have hdrop : item.dropLast = a ++ nsfd ++ (bh :: bt).dropLast := by
        rw [hab, List.append_assoc, List.dropLast_append_of_ne_nil a (by simp),
          List.dropLast_append_of_ne_nil nsfd (by simp), List.append_assoc]
      rw [hdrop]
      exact hasSub_filter _ (by decide) (hasSub_append ..)
  · simp only [hd, if_false, Bool.false_eq_true]
    exact hasSub_filter _ (by decide) h

theorem parseDirListing_notFound {out : Str} (h : hasSub out nsfd = true) :
    ∃ f ∈ parseDirListing out, hasSub f.name nsfd = true := by
  obtain ⟨chunk, hchunkmem, hchunk⟩ := hasSub_splitOnChar '\n' (by decide) out h
  have hfil : hasSub (chunk.filter keepPrintNl) nsfd = true :=
    hasSub_filter keepPrintNl (by decide) hchunk
  have hesc : '\x1b' ∉ chunk.filter keepPrintNl := by
    intro hm
    exact absurd (List.mem_filter.mp hm).2 (by decide)
  have hclean : hasSub (cleanDirLine chunk) nsfd = true := by
    rw [cleanDirLine, stripCSI_eq_self hesc]
    exact jsTrim_hasSub (by decide) (by decide) (by decide) hfil
  have hne : cleanDirLine chunk ≠ [] := by
    intro e
    rw [e] at hclean
    exact absurd hclean (by decide)
  have hb1 : (cleanDirLine chunk == str "./") = false := by
    rw [beq_eq_false_iff_ne]
    intro e
    have hlen := length_le_of_hasSub hclean
    rw [e] at hlen
    exact absurd hlen (by decide)
  have hb2 : (cleanDirLine chunk == str "../") = false := by
    rw [beq_eq_false_iff_ne]
    intro e
    have hlen := length_le_of_hasSub hclean
    rw [e] at hlen
    exact absurd hlen (by decide)
  refine ⟨dirEntryOfLine (cleanDirLine chunk), ?_, dirEntryOfLine_hasSub hclean⟩
  rw [parseDirListing, mem_sortByLe]
  refine List.mem_map.mpr ⟨cleanDirLine chunk, ?_, rfl⟩
  refine List.mem_filter.mpr ⟨?_, by simp [hb1, hb2]⟩
  refine List.mem_filter.mpr ⟨List.mem_map.mpr ⟨chunk, hchunkmem, rfl⟩, by simp [hne]⟩

/-- C1: for every exec session processed by the adapter (read file, delete
file, create file, arbitrary command, list directory), an aggregated output
containing the literal substring "No such file or directory" classifies as
Not-Found — the 404-mapped `Responses.NotFound` error, or a null listing —
regardless of the session's exit code, in particular when the exit code
is 0. -/
theorem notFound_classification (ec : Int) (out : Str) (h : hasSub out nsfd = true) :
    readFileRun ec out = Except.error (Responses.NotFound nsfd none) ∧
    deleteFileRun ec out = Except.error (Responses.NotFound nsfd none) ∧
    createFileRun ec out = Except.error (Responses.NotFound nsfd none) ∧
    executeCommandRun ec out = Except.error (Responses.NotFound nsfd none) ∧
    readDirectoryRun ec out = none := by
  refine ⟨by rw [readFileRun, if_pos h], by rw [deleteFileRun, if_pos h],
    by rw [createFileRun, if_pos h], by rw [executeCommandRun, if_pos h], ?_⟩
  obtain ⟨f, hf, hfs⟩ := parseDirListing_notFound h
  have hsome := find?_isSome_of_mem (fun g => hasSub g.name nsfd) hf hfs
  simp only [readDirectoryRun, hsome, if_true]

theorem notFound_classification_witness :
    readFileRun 0 (str "cat: /data/x: No such file or directory")
      = Except.error (Responses.NotFound nsfd none) ∧
    readDirectoryRun 0 (str "ls: /data/x: No such file or directory") = none := by
  refine ⟨(notFound_classification 0 _ (by decide)).1, ?_⟩
  exact (notFound_classification 0 _ (by decide)).2.2.2.2

/-! ### Live log buffer (src/services/Redis.service.ts) -/

/-- Source `RedisService.LOG_LIMIT`: the ring-buffer capacity. -/
def LOG_LIMIT : Nat := 1000

/-- Source `RedisService.addLog`: `lpush` puts the new line at the head of
the Redis list, `ltrim 0 (LOG_LIMIT-1)` keeps the newest `LOG_LIMIT`
entries.  The buffer state lists the newest line first. -/
def addLog (line : Str) (buf : List Str) : List Str := (line :: buf).take LOG_LIMIT

/-- Source `RedisService.getLogs` per-line cleaning: falsy (empty) entries
are skipped; otherwise strip `[^\x20-\x7E\n]`, then, when the first `[`
occurs at a positive index, drop everything before it. -/
def cleanLogLine (l : Str) : Str :=
  if l.isEmpty then l
  else
    let s := l.filter keepPrintNl
    match s.findIdx? (fun c => c == '[') with
    | some i => if 0 < i then s.drop i else s
    | none => s

/-- Source `RedisService.getLogs`: `lrange 0 -1` yields the buffer newest
first; the result is cleaned per line and then reversed. -/
def getLogs (buf : List Str) : List Str := (buf.map cleanLogLine).reverse

/-- Sequential pushes through `addLog`, oldest line first in `lines`. -/
def pushAll (lines : List Str) (buf : List Str) : List Str :=
  lines.foldl (fun b line => addLog line b) buf

/-- C4 counterexample: after pushing "[A]" then "[B]" (so "[B]" is the most
recent retained line), `getLogs` returns "[A]" first — the head of the
returned list is the oldest line, not the newest, refuting the claim at this
concrete input. -/
theorem logs_order_counterexample :
    getLogs (addLog (str "[B]") (addLog (str "[A]") [])) = [str "[A]", str "[B]"] ∧
    (getLogs (addLog (str "[B]") (addLog (str "[A]") []))).head? = some (str "[A]") ∧
    str "[A]" ≠ str "[B]" := by
  refine ⟨by decide, by decide, by decide⟩

theorem pushAll_eq_reverse_append :
    ∀ (ls : List Str) (st : List Str), ls.length + st.length ≤ LOG_LIMIT →
      pushAll ls st = ls.reverse ++ st := by
  intro ls
  induction ls with
  | nil => intro st _; simp [pushAll]
  | cons l ls2 ih =>
    intro st hlen
    rw [pushAll, List.foldl_cons]
    have hpush : addLog l st = l :: st := by
      rw [addLog, List.take_of_length_le]
      simp only [List.length_cons, List.length_cons] at hlen ⊢
      omega
    rw [hpush]
    have h2 := ih (l :: st) (by simp only [List.length_cons] at hlen ⊢; omega)
    rw [pushAll] at h2
    rw [h2]
    simp

/-- C4 amended: `GET /containers/:id/logs` returns the buffered lines in
chronological order — oldest first, the most recent line last (the source
reverses the newest-first `lrange` result before returning it). -/
theorem logs_chronological (lines : List Str) (h : lines.length ≤ LOG_LIMIT) :
    getLogs (pushAll lines []) = lines.map cleanLogLine := by
  rw [pushAll_eq_reverse_append lines [] (by simpa using h), getLogs]
  simp

theorem logs_chronological_witness :
    getLogs (pushAll [str "[A]", str "[B]"] []) = [str "[A]", str "[B]"] := by
  rw [logs_chronological _ (by decide)]
  decide

/-! ### Response envelopes and the request dispatcher (src/utils/index.ts) -/

/-- Bodies of wire responses: the `{ success: true, data }` envelope, the
`{ success: false, error, message?, details? }` envelope, and the
`{ success: false, error, detailed }` envelope sent when a handler returns a
non-`HttpResponse` value. -/
inductive Body where
  | data (payload : JVal)
  | err (error : Str) (message : Option Str) (details : Option JVal)
  | errDetailed (error : Str) (detailed : JVal)

/-- A wire response: HTTP status plus body. -/
structure Response where
  status : Nat
  body : Body

/-- JavaScript truthiness of the modelled values. -/
def truthy : JVal → Bool
  | .str s => !s.isEmpty
  | .num n => !(n == 0)
  | .bool b => b
  | .arr _ => true
  | .obj _ => true

/-- JavaScript property access `v.key` (with `?.` semantics for the absent
cases): objects yield their first binding of the key, everything else
`undefined`. -/
def getProp : JVal → Str → Option JVal
  | .obj fields, key => (fields.find? (fun f => f.1 == key)).map (fun f => f.2)
  | _, _ => none

def truthyOpt : Option JVal → Bool
  | none => false
  | some v => truthy v

/-- Source dispatcher `details` unwrapping:
`(error.details as any)?.details ? error.details.details : error.details ?
error.details : undefined`. -/
def unwrapDetails : Option JVal → Option JVal
  | none => none
  | some v =>
    if truthyOpt (getProp v (str "details")) then getProp v (str "details")
    else if truthy v then some v
    else none

/-- Outcome of invoking a route handler: returned an `HttpResponse`,
returned some other value, threw an `HttpError`, or threw anything else. -/
inductive HandlerResult where
  | ret (r : HttpResponse)
  | retOther (v : JVal)
  | throwHttp (e : HttpError)
  | throwOther (message : Str)

/-- Source dispatcher (the `app.route` handler of src/utils/index.ts): an
`HttpResponse` becomes the success envelope at its status; any other return
value becomes a 500 `detailed` envelope; a thrown `HttpError` becomes
`status(error.status)` with `{ error: error.name, message, success: false,
details: <unwrapped> }`; any other throw becomes a plain 500 envelope. -/
def dispatch : HandlerResult → Response
  | .ret r => ⟨r.status, Body.data r.body⟩
  | .retOther v => ⟨500, Body.errDetailed (str "Internal Server Error") v⟩
  | .throwHttp e => ⟨e.status, Body.err e.jsName (some e.message) (unwrapDetails e.details)⟩
  | .throwOther m => ⟨500, Body.err (str "Internal Server Error") (some m) none⟩

/-! ### Auth hook (src/utils/index.ts app.addHook) -/

/-- Source: `const publicRoutes = ["/logs"]`. -/
def publicRoutes : List Str := [str "/logs"]

/-- Source `onRequest` hook: `/health` passes, any URL that ends with an
entry of `publicRoutes` passes, otherwise the `Authorization` header must
equal `Bearer <token>`. -/
def authAllows (url authHeader token : Str) : Bool :=
  if url == str "/health" then true
  else if publicRoutes.any (fun route => route.isSuffixOf url) then true
  else authHeader == str "Bearer " ++ token

/-- The 401 body sent by the hook: `{ error: "Unauthorized", success: false }`. -/
def unauthorizedResponse : Response := ⟨401, Body.err (str "Unauthorized") none none⟩

/-- End-to-end request processing: the hook runs before the route handler;
when it rejects, the 401 response is sent and the handler never executes.
The Boolean records whether the handler ran. -/
def processRequest (url authHeader token : Str) (handlerResponse : Response) :
    Bool × Response :=
  if authAllows url authHeader token then (true, handlerResponse)
  else (false, unauthorizedResponse)

/-- C3 counterexample: `/containers/c1/logs` is not on the claim's allow-list
(`/health`, `/logs`) and the request carries no valid token, yet the hook
lets it through (the code tests `url.endsWith(route)`), so the handler
executes and no 401 is sent — refuting the claim at this concrete input. -/
theorem auth_allowlist_counterexample :
    str "/containers/c1/logs" ≠ str "/health" ∧
    str "/containers/c1/logs" ≠ str "/logs" ∧
    ([] : Str) ≠ str "Bearer " ++ str "secret" ∧
    processRequest (str "/containers/c1/logs") [] (str "secret")
        ⟨200, Body.data (JVal.bool true)⟩
      = (true, ⟨200, Body.data (JVal.bool true)⟩) :=
  ⟨by decide, by decide, by decide, rfl⟩

/-- C3 amended: the effective allow-list is `/health` (exact match) plus
every URL that merely ends with `/logs`; for all other URLs a request whose
`Authorization` header differs from `Bearer <token>` is answered 401 with
`success: false` and the handler does not execute. -/
theorem auth_gate (url authHeader token : Str) (hr : Response)
    (h1 : (url == str "/health") = false)
    (h2 : ((str "/logs").isSuffixOf url) = false)
    (h3 : (authHeader == str "Bearer " ++ token) = false) :
    processRequest url authHeader token hr = (false, unauthorizedResponse) := by
  have hfalse : authAllows url authHeader token = false := by
    rw [authAllows]
    simp [h1, h2, h3, publicRoutes]
  rw [processRequest, if_neg (by simp [hfalse])]

theorem auth_gate_witness :
    processRequest (str "/containers") [] (str "secret") ⟨200, Body.data (JVal.bool true)⟩
      = (false, unauthorizedResponse) :=
  auth_gate (str "/containers") [] (str "secret") ⟨200, Body.data (JVal.bool true)⟩
    (by decide) (by decide) (by decide)

/-! ### Failure mapping (C2) -/

/-- The DELETE files route handler composed with `deleteFileRun`: a raised
`HttpError` propagates to the dispatcher, success wraps the output in
`Responses.Ok`. -/
def deleteFileHandler (ec : Int) (out : Str) : HandlerResult :=
  match deleteFileRun ec out with
  | .error e => .throwHttp e
  | .ok o => .ret (Responses.Ok (JVal.str o))

/-- C2 counterexample: a thrown `Responses.NotFound` produces status 404 but
the envelope's `error` field is the string `"Error"` (the inherited
`Error.prototype.name`), not `"NotFound"` as the claim requires. -/
theorem errorName_counterexample :
    dispatch (HandlerResult.throwHttp (Responses.NotFound (str "No such file or directory") none))
      = ⟨404, Body.err (str "Error") (some (str "No such file or directory")) none⟩ ∧
    str "Error" ≠ str "NotFound" :=
  ⟨rfl, by decide⟩

/-- C2 amended: a thrown typed error is answered with the HTTP status bound
to its kind (BadRequest 400, Unauthorized 401, Forbidden 403, NotFound 404,
Conflict 409, InternalServerError 500, FromCode passthrough) in the envelope
`{ success: false, error, message, details? }`, but the `error` field is
always the constant string `"Error"` — in particular deleting a non-existent
file yields 404 with `error: "Error"`, not `"NotFound"`. -/
theorem failure_mapping (m : Str) (d : Option JVal) :
    dispatch (.throwHttp (Responses.BadRequest m d))
      = ⟨400, Body.err (str "Error") (some m) (unwrapDetails d)⟩ ∧
    dispatch (.throwHttp (Responses.Unauthorized m d))
      = ⟨401, Body.err (str "Error") (some m) (unwrapDetails d)⟩ ∧
    dispatch (.throwHttp (Responses.Forbidden m d))
      = ⟨403, Body.err (str "Error") (some m) (unwrapDetails d)⟩ ∧
    dispatch (.throwHttp (Responses.NotFound m d))
      = ⟨404, Body.err (str "Error") (some m) (unwrapDetails d)⟩ ∧
    dispatch (.throwHttp (Responses.Conflict m d))
      = ⟨409, Body.err (str "Error") (some m) (unwrapDetails d)⟩ ∧
    dispatch (.throwHttp (Responses.InternalServerError m d))
      = ⟨500, Body.err (str "Error") (some m) (unwrapDetails d)⟩ ∧
    (∀ st : Nat, dispatch (.throwHttp (Responses.FromCode st m d))
      = ⟨st, Body.err (str "Error") (some m) (unwrapDetails d)⟩) ∧
    (∀ (ec : Int) (out : Str), hasSub out nsfd = true →
      dispatch (deleteFileHandler ec out)
        = ⟨404, Body.err (str "Error") (some nsfd) none⟩) := by
  refine ⟨rfl, rfl, rfl, rfl, rfl, rfl, fun st => rfl, ?_⟩
  intro ec out h
  rw [deleteFileHandler, deleteFileRun, if_pos h]
  rfl

theorem failure_mapping_witness :
    dispatch (HandlerResult.throwHttp (Responses.BadRequest (str "m") none))
      = ⟨400, Body.err (str "Error") (some (str "m")) none⟩ ∧
    dispatch (deleteFileHandler 0 (str "rm: cannot remove: No such file or directory"))
      = ⟨404, Body.err (str "Error") (some nsfd) none⟩ :=
  ⟨(failure_mapping (str "m") none).1,
   (failure_mapping (str "m") none).2.2.2.2.2.2.2 0 _ (by decide)⟩

/-! ### Details passthrough and scenario B (C9) -/

/-- Issues produced by body validation. -/
structure ZIssue where
  path : Str
  message : Str
deriving DecidableEq, Repr

/-- Modelled from the spec: `ZodErrorFormatter` (imported from `@/lib/utils`,
which is absent from the sources) renders zod validation failures as an array
of field-level entries naming the offending field. -/
def zodIssuesToJVal (issues : List ZIssue) : JVal :=
  JVal.arr (issues.map (fun i =>
    JVal.obj [(str "path", JVal.str i.path), (str "message", JVal.str i.message)]))

/-- The POST /containers body, fields optional before validation (the schema
field `type` is called `serverType` here because `type` is reserved). -/
structure CreateBody where
  name : Option Str
  version : Option Str
  serverType : Option Str
  port : Option Int
  memory : Option Str

/-- Validation against `createServerSchema` of src/routes/containers/create.ts
(`name` a required string of 3–32 chars; `version` nonempty, defaulted;
`type` in the enum, defaulted; `port` an int in 1024–49151, defaulted;
`memory` defaulted), collecting one issue per failing field as `safeParse`
does. -/
def validateCreateBody (b : CreateBody) : List ZIssue :=
  (match b.name with
   | none => [⟨str "name", str "Required"⟩]
   | some n =>
     if n.length < 3 then
       [⟨str "name", str "String must contain at least 3 character(s)"⟩]
     else if 32 < n.length then
       [⟨str "name", str "String must contain at most 32 character(s)"⟩]
     else []) ++
  (match b.version with
   | none => []
   | some v =>
     if v.length < 1 then
       [⟨str "version", str "String must contain at least 1 character(s)"⟩]
     else []) ++
  (match b.serverType with
   | none => []
   | some t =>
     if t == str "VANILLA" || t == str "PAPER" || t == str "FORGE" || t == str "FABRIC"
     then [] else [⟨str "type", str "Invalid enum value"⟩]) ++
  (match b.port with
   | none => []
   | some p => if 1024 ≤ p && p ≤ 49151 then [] else [⟨str "port", str "Port out of range"⟩])

/-- Source POST /containers handler: on validation failure it throws
`Responses.BadRequest("Invalid body", { details: ZodErrorFormatter(...) })`;
the success path (the container-engine call) is abstracted as `onValid`. -/
def createContainersHandler (b : CreateBody) (onValid : HandlerResult) : HandlerResult :=
  match validateCreateBody b with
  | [] => onValid
  | issues => .throwHttp (Responses.BadRequest (str "Invalid body")
      (some (JVal.obj [(str "details", zodIssuesToJVal issues)])))

/-- Does a `details` payload name the given field? -/
def detailsNamesField (v : Option JVal) (field : Str) : Bool :=
  match v with
  | some (JVal.arr xs) => xs.any (fun e =>
      match getProp e (str "path") with
      | some (JVal.str p) => p == field
      | _ => false)
  | _ => false

/-- C9 counterexample: an error raised with the details payload
`{ details: ["x"] }` is delivered as `["x"]` — the dispatcher unwraps the
nested `details` key, so the delivered payload is not identical to the one
the error was raised with. -/
theorem details_passthrough_counterexample :
    dispatch (HandlerResult.throwHttp (HttpError.mk 400 (str "m")
        (some (JVal.obj [(str "details", JVal.arr [JVal.str (str "x")])]))))
      = ⟨400, Body.err (str "Error") (some (str "m")) (some (JVal.arr [JVal.str (str "x")]))⟩ ∧
    some (JVal.arr [JVal.str (str "x")])
      ≠ some (JVal.obj [(str "details", JVal.arr [JVal.str (str "x")])]) :=
  ⟨rfl, fun h => JVal.noConfusion (Option.some.inj h)⟩

/-- C9 amended: the delivered `details` equals the raised payload only when
the payload is truthy and has no truthy `details` property of its own;
a payload with a truthy `details` property is unwrapped to that inner value.
Scenario B holds: `POST /containers` with a 2-character name yields a 400
envelope whose `details` array names the `name` field (through the
spec-modelled `ZodErrorFormatter`). -/
theorem details_passthrough_amended :
    (∀ (st : Nat) (m : Str) (v : JVal),
      truthyOpt (getProp v (str "details")) = false → truthy v = true →
      dispatch (.throwHttp (HttpError.mk st m (some v)))
        = ⟨st, Body.err (str "Error") (some m) (some v)⟩) ∧
    (∀ onValid : HandlerResult,
      dispatch (createContainersHandler
          ⟨some (str "ab"), none, none, none, none⟩ onValid)
        = ⟨400, Body.err (str "Error") (some (str "Invalid body"))
            (some (zodIssuesToJVal
              [⟨str "name", str "String must contain at least 3 character(s)"⟩]))⟩ ∧
      detailsNamesField
        (some (zodIssuesToJVal
          [⟨str "name", str "String must contain at least 3 character(s)"⟩]))
        (str "name") = true) := by
  constructor
  · intro st m v h1 h2
    rw [dispatch]
    rw [unwrapDetails, if_neg (by simp [h1]), if_pos (by simp [h2])]
    rfl
  · intro onValid
    exact ⟨rfl, by decide⟩

theorem details_passthrough_amended_witness :
    dispatch (HandlerResult.throwHttp (HttpError.mk 422 (str "m")
        (some (JVal.obj [(str "field", JVal.str (str "name"))]))))
      = ⟨422, Body.err (str "Error") (some (str "m"))
          (some (JVal.obj [(str "field", JVal.str (str "name"))]))⟩ ∧
    dispatch (createContainersHandler ⟨some (str "ab"), none, none, none, none⟩
        (HandlerResult.throwOther (str "unused")))
      = ⟨400, Body.err (str "Error") (some (str "Invalid body"))
          (some (zodIssuesToJVal
            [⟨str "name", str "String must contain at least 3 character(s)"⟩]))⟩ :=
  ⟨details_passthrough_amended.1 422 (str "m")
      (JVal.obj [(str "field", JVal.str (str "name"))]) (by decide) (by decide),
   (details_passthrough_amended.2 (HandlerResult.throwOther (str "unused"))).1⟩

/-! ### Sanitization pipeline (C6) -/

/-- C6 counterexample: `executeCommand` output containing the control
character `\x03` (ETX) and edge whitespace is returned unchanged — the
sanitization of this path strips only CSI sequences and six specific control
characters and never trims, so the returned text still contains a control
character, refuting the claim at this concrete input. -/
theorem sanitization_counterexample :
    executeCommandRun 0 (str "\x03 ok ") = Except.ok (str "\x03 ok ") ∧
    '\x03' ∈ str "\x03 ok " ∧
    isPrintableAscii '\x03' = false ∧
    jsTrim (str "\x03 ok ") ≠ str "\x03 ok " := by
  refine ⟨?_, by decide, by decide, by decide⟩
  rw [executeCommandRun, if_neg (by decide)]
  unfold sanitizeExec
  rw [stripCSI_eq_self (by decide)]
  rfl

/-- C6 amended: the two return paths sanitize differently and only as
follows.  `readFile` trims first, then strips U+FFFD and every character
outside printable ASCII except newline — its result therefore contains only
printable ASCII and newlines (though edge whitespace uncovered by the
stripping, and printable remnants of ANSI sequences, may remain).
`executeCommand` strips ANSI CSI sequences and exactly the six control
characters NUL, SOH, STX, RS, FF and DC1, with no trim — its result is only
guaranteed free of those six characters. -/
theorem sanitization_characterization :
    (∀ (out : Str) (c : Char), c ∈ sanitizeReadFile out → keepPrintNl c = true) ∧
    (∀ (out : Str) (c : Char), c ∈ sanitizeExec out →
      c ≠ '\x00' ∧ c ≠ '\x01' ∧ c ≠ '\x02' ∧ c ≠ '\x1e' ∧ c ≠ '\x0c' ∧ c ≠ '\x11') := by
  constructor
  · intro out c hc
    exact (List.mem_filter.mp hc).2
  · intro out c hc
    unfold sanitizeExec at hc
    obtain ⟨hc, e6⟩ := List.mem_filter.mp hc
    obtain ⟨hc, e5⟩ := List.mem_filter.mp hc
    obtain ⟨hc, e4⟩ := List.mem_filter.mp hc
    obtain ⟨hc, e3⟩ := List.mem_filter.mp hc
    obtain ⟨hc, e2⟩ := List.mem_filter.mp hc
    obtain ⟨hc, e1⟩ := List.mem_filter.mp hc
    simp only [Bool.not_eq_eq_eq_not, Bool.not_true, beq_eq_false_iff_ne] at e1 e2 e3 e4 e5 e6
    exact ⟨e1, e3, e2, e4, e5, e6⟩

theorem sanitization_characterization_witness :
    keepPrintNl 'a' = true ∧ 'b' ≠ '\x00' := by
  have hm : 'b' ∈ sanitizeExec (str "b") := by
    unfold sanitizeExec
    rw [stripCSI_eq_self (by decide)]
    decide
  exact ⟨sanitization_characterization.1 (str " a") 'a' (by decide),
    (sanitization_characterization.2 (str "b") 'b' hm).1⟩

/-! ### Write/read round trip (C8) -/

/-- Container file state: an association of paths to contents. -/
abbrev Files := List (Str × Str)

/-- Modelled from the spec: `DockerService.writeFile` (called by the PUT
files route but absent from the sources) runs the filesystem command that
writes `content` to the file at `path`; modelled as updating the binding of
`path`. -/
def writeFile (path content : Str) (fs : Files) : Files := (path, content) :: fs

/-- Modelled from the spec: the `cat` content-dump command underlying
`readFile` emits the stored content of an existing file unchanged, and a
diagnostic containing "No such file or directory" for a missing one (the
substring match is the sole existence-detection mechanism). -/
def catOutput (path : Str) (fs : Files) : Str :=
  match fs.find? (fun e => e.1 == path) with
  | some e => e.2
  | none => str "cat: " ++ path ++ str ": No such file or directory" ++ ['\n']

/-- C8 counterexample: write the single-space content " " (printable ASCII)
to a sandboxed path, then read it back: the read-side trim reduces it to the
empty string, so the round trip does not return the written content. -/
theorem roundTrip_counterexample :
    (str "/data/").isPrefixOf (str "/data/f") = true ∧
    (∀ c ∈ str " ", isPrintableAscii c = true) ∧
    readFileRun 0 (catOutput (str "/data/f") (writeFile (str "/data/f") (str " ") []))
      = Except.ok [] ∧
    str " " ≠ ([] : Str) := by
  refine ⟨by decide, by decide, ?_, by decide⟩
  rfl

/-- C8 amended: the round trip `Write file(p, X)` then `Read file(p)`
returns `X` for printable-ASCII `X` provided additionally that `X` carries
no leading or trailing whitespace (the read side trims) and does not contain
the substring "No such file or directory" (which would classify the read as
Not-Found). -/
theorem roundTrip (fs : Files) (p x : Str) (ec : Int)
    (hp : (str "/data/").isPrefixOf p = true)
    (hx : ∀ c ∈ x, isPrintableAscii c = true)
    (ht : jsTrim x = x)
    (hn : hasSub x nsfd = false) :
    readFileRun ec (catOutput p (writeFile p x fs)) = Except.ok x := by
  have hcat : catOutput p (writeFile p x fs) = x := by
    rw [catOutput, writeFile, List.find?]
    simp
  rw [hcat, readFileRun, if_neg (by simp [hn])]
  have h1 : ∀ c ∈ x, (!(c == '�')) = true := by
    intro c hc
    have hpr := hx c hc
    simp only [Bool.not_eq_eq_eq_not, Bool.not_true, beq_eq_false_iff_ne]
    intro e
    rw [e] at hpr
    exact absurd hpr (by decide)
  have h2 : ∀ c ∈ x, keepPrintNl c = true := by
    intro c hc
    rw [keepPrintNl, hx c hc]
    rfl
  rw [sanitizeReadFile, ht, List.filter_eq_self.mpr h1, List.filter_eq_self.mpr h2]

theorem roundTrip_witness :
    readFileRun 0 (catOutput (str "/data/cfg") (writeFile (str "/data/cfg") (str "hello") []))
      = Except.ok (str "hello") :=
  roundTrip [] (str "/data/cfg") (str "hello") 0 (by decide) (by decide) (by decide) (by decide)

/-! ### Route table builder (src/index.ts readRoutes) -/

/-- A handler-definition module as imported: optional explicit method and
URL, and whether a handler body is present. -/
structure RouteDef where
  method : Option Str
  url : Option Str
  hasHandler : Bool
deriving DecidableEq, Repr

/-- A parameter descriptor (`{ name, type, index }`; `type` is called
`ptype` because `type` is reserved in Lean). -/
structure ParamM where
  name : Str
  ptype : Str
  index : Nat
deriving DecidableEq, Repr

/-- A registered route (`{ method, url, params }` plus whether the handler
was defaulted to the "not yet implemented" stub). -/
structure FileRouteM where
  method : Str
  url : Str
  params : List ParamM
  stub : Bool
deriving DecidableEq, Repr

/-- Per-segment extension stripping, `seg.replace(/\.[tj]sx?$/, "")`. -/
def stripExt (seg : Str) : Str :=
  if (str ".tsx").isSuffixOf seg then seg.take (seg.length - 4)
  else if (str ".jsx").isSuffixOf seg then seg.take (seg.length - 4)
  else if (str ".ts").isSuffixOf seg then seg.take (seg.length - 3)
  else if (str ".js").isSuffixOf seg then seg.take (seg.length - 3)
  else seg

/-- Source `segments.slice(segments.indexOf(basePath) + 1)`: everything
after the first segment equal to `basePath` (the whole list when absent,
since `indexOf` yields `-1` and `slice(0)` copies). -/
def relAfterFirst (base : Str) (segs : List Str) : List Str :=
  match segs.findIdx? (fun s => s == base) with
  | some i => segs.drop (i + 1)
  | none => segs

/-- JavaScript `array.join(sep)` for path segments. -/
def joinSep (sep : Char) : List Str → Str
  | [] => []
  | [x] => x
  | x :: xs => x ++ sep :: joinSep sep xs

/-- Source parameter extraction: keep the path segments that start with
`[`, then for each (with its index in the filtered list) remove the first
`[` and the first `]`, split on `:` for an explicit type (default
`string`), the part before `:` being the name. -/
def paramsOfPath (segs : List Str) : List ParamM :=
  ((segs.filter (fun p => (str "[").isPrefixOf p)).enum).map (fun pr =>
    let noBrackets := removeFirstChar ']' (removeFirstChar '[' pr.2)
    let parts := splitOnChar ':' noBrackets
    let ptype := if noBrackets.contains ':' then parts.getD 1 [] else str "string"
    let name := parts.headD []
    ⟨name, ptype, pr.1⟩)

/-- Source URL rewriting: for each parameter, replace the first occurrence
of `[name:type]`, then of `[name]`, by `:name`. -/
def applyParamRewrites (params : List ParamM) (url : Str) : Str :=
  params.foldl (fun u prm =>
    replaceFirst
      (replaceFirst u (str "[" ++ prm.name ++ str ":" ++ prm.ptype ++ str "]")
        (str ":" ++ prm.name))
      (str "[" ++ prm.name ++ str "]") (str ":" ++ prm.name)) url

/-- Source `readRoutes` body for a single file: URL inferred from the path
relative to the first `basePath` segment with extensions stripped, a
trailing `index` segment dropped and parameters rewritten; `GET` and a stub
handler are defaulted; an explicit non-empty `route.url` wins
(`route.url || url`). -/
def routeOfFile (base : Str) (filePath : List Str) (r : RouteDef) : FileRouteM :=
  let relativePath := relAfterFirst base filePath
  let withoutExt := relativePath.map stripExt
  let withoutExt2 :=
    if withoutExt.getLast? = some (str "index") then withoutExt.dropLast else withoutExt
  let url0 := '/' :: joinSep '/' withoutExt2
  let url1 := if url0 = [] then str "/" else url0
  let params := paramsOfPath filePath
  let url2 := applyParamRewrites params url1
  { method := r.method.getD (str "GET")
    url := match r.url with
           | some u => if u.isEmpty then url2 else u
           | none => url2
    params := params
    stub := !r.hasHandler }

/-- A handler-definition tree: files carry their module's declarations. -/
inductive FsTree where
  | file (name : Str) (route : RouteDef)
  | dir (name : Str) (children : List FsTree)

mutual

/-- Source `readRoutes` recursion: directories are walked depth-first in
listing order, each file contributing exactly one pushed route. -/
def walkOne (base : Str) (dirPath : List Str) : FsTree → List FileRouteM
  | .file n r => [routeOfFile base (dirPath ++ [n]) r]
  | .dir n cs => walkList base (dirPath ++ [n]) cs

def walkList (base : Str) (dirPath : List Str) : List FsTree → List FileRouteM
  | [] => []
  | t :: ts => walkOne base dirPath t ++ walkList base dirPath ts

end

/-- Source top-level call `readRoutes("routes", path.join(__dirname,
"routes"))`: `dirPrefix` models the `__dirname` segments. -/
def readRoutes (dirPrefix : List Str) (children : List FsTree) : List FileRouteM :=
  walkList (str "routes") (dirPrefix ++ [str "routes"]) children

mutual

def numFilesTree : FsTree → Nat
  | .file _ _ => 1
  | .dir _ cs => numFilesList cs

def numFilesList : List FsTree → Nat
  | [] => 0
  | t :: ts => numFilesTree t + numFilesList ts

end

mutual

theorem walkOne_length : ∀ (base : Str) (dp : List Str) (t : FsTree),
    (walkOne base dp t).length = numFilesTree t
  | base, dp, .file n r => by simp [walkOne, numFilesTree]
  | base, dp, .dir n cs => by
    rw [walkOne, numFilesTree]
    exact walkList_length base (dp ++ [n]) cs

theorem walkList_length : ∀ (base : Str) (dp : List Str) (ts : List FsTree),
    (walkList base dp ts).length = numFilesList ts
  | base, dp, [] => by simp [walkList, numFilesList]
  | base, dp, t :: ts => by
    rw [walkList, numFilesList, List.length_append,
      walkOne_length base dp t, walkList_length base dp ts]

end

/-- C5 counterexample: a file whose own name is bracketed, `[id].ts`.  The
parameter name is extracted from the path before the extension is stripped
(yielding `id.ts`), so neither rewrite pattern matches and the inferred URL
stays `/[id]` instead of the `/:id` the claim's rewriting rule requires. -/
theorem routeBuilder_counterexample :
    readRoutes [] [FsTree.file (str "[id].ts") ⟨none, none, true⟩]
      = [⟨str "GET", str "/[id]", [⟨str "id.ts", str "string", 0⟩], false⟩] ∧
    str "/[id]" ≠ str "/:id" :=
  ⟨by decide, by decide⟩

/-- C5 amended: the builder produces exactly one route descriptor per file,
and a file at `a/[id]/b/index` yields the URL `/a/:id/b` (extension
stripped, trailing `index` dropped, the bracketed directory segment
rewritten to `:id`); the per-segment rewriting does not extend to a
bracketed file name, whose URL keeps the brackets (see the
counterexample). -/
theorem routeBuilder_inference :
    (∀ (pre : List Str) (cs : List FsTree), (readRoutes pre cs).length = numFilesList cs) ∧
    readRoutes [] [FsTree.dir (str "a") [FsTree.dir (str "[id]") [FsTree.dir (str "b")
        [FsTree.file (str "index.ts") ⟨none, none, true⟩]]]]
      = [⟨str "GET", str "/a/:id/b", [⟨str "id", str "string", 0⟩], false⟩] :=
  ⟨fun _ cs => walkList_length _ _ cs, by decide⟩

theorem not_mem_of_contains_false {l : Str} {c : Char} (h : l.contains c = false) : c ∉ l := by
  intro hm
  have h2 : l.contains c = true := List.elem_iff.mpr hm
  rw [h2] at h
  cases h

theorem removeFirstChar_eq_self {c : Char} : ∀ {l : Str}, c ∉ l → removeFirstChar c l = l
  | [], _ => rfl
  | a :: rest, h => by
    have ha : ¬ (a == c) = true := by
      simp only [beq_iff_eq]
      intro e; exact h (e ▸ List.mem_cons_self a rest)
    rw [removeFirstChar, if_neg ha,
      removeFirstChar_eq_self (fun hm => h (List.mem_cons_of_mem _ hm))]

theorem splitOnChar_eq_single {sep : Char} : ∀ {l : Str}, sep ∉ l → splitOnChar sep l = [l]
  | [], _ => rfl
  | c :: rest, h => by
    have hc : ¬ (c == sep) = true := by
      simp only [beq_iff_eq]
      intro e; exact h (e ▸ List.mem_cons_self c rest)
    rw [splitOnChar, splitOnChar_eq_single (fun hm => h (List.mem_cons_of_mem _ hm))]
    simp [hc]

/-- C7 counterexample: a tree containing the malformed (unbalanced)
parameter segment `[oops`.  Route-table construction succeeds — the source
has no validation and no throwing path, so the builder, a total function
here, delivers a table in which the malformed segment survives verbatim in
the URL — refuting the claimed fatal startup error at this concrete
input. -/
theorem malformed_pattern_counterexample :
    readRoutes [] [FsTree.dir (str "[oops") [FsTree.file (str "index.ts") ⟨none, none, true⟩]]
      = [⟨str "GET", str "/[oops", [⟨str "oops", str "string", 0⟩], false⟩] := by
  decide

/-- C7 amended: a malformed parameter pattern is not detected at startup;
for every unbalanced bracket segment `m` (starts with `[`, no closing `]`,
no `:`, no extension suffix), the builder silently registers the file under
the mangled URL `/m` with the bracket kept verbatim, instead of failing
fast. -/
theorem malformed_param_silently_registered (m : Str)
    (h1 : (str "[").isPrefixOf m = true)
    (h2 : m.contains ']' = false)
    (h3 : m.contains ':' = false)
    (h4 : stripExt m = m) :
    readRoutes [] [FsTree.dir m [FsTree.file (str "index.ts") ⟨none, none, true⟩]]
      = [⟨str "GET", '/' :: m, [⟨m.drop 1, str "string", 0⟩], false⟩] := by
  obtain ⟨m2, rfl⟩ : ∃ t, m = '[' :: t := by
    obtain ⟨t, ht⟩ := List.isPrefixOf_iff_prefix.mp h1
    exact ⟨t, by rw [← ht]; rfl⟩
  have h2m : ']' ∉ m2 := fun hm =>
    not_mem_of_contains_false h2 (List.mem_cons_of_mem _ hm)
  have h3m : ':' ∉ m2 := fun hm =>
    not_mem_of_contains_false h3 (List.mem_cons_of_mem _ hm)
  have hc3 : m2.contains ':' = false := by
    cases hcc : m2.contains ':'
    · rfl
    · exact absurd (List.elem_iff.mp hcc) h3m
  have hparams : paramsOfPath [str "routes", '[' :: m2, str "index.ts"]
      = [⟨m2, str "string", 0⟩] := by
    rw [paramsOfPath]
    have e0 : ((str "[").isPrefixOf (str "routes")) = false := by decide
    have e1 : ((str "[").isPrefixOf ('[' :: m2)) = true := by
      rw [List.isPrefixOf_iff_prefix]; exact ⟨m2, rfl⟩
    have e2 : ((str "[").isPrefixOf (str "index.ts")) = false := by decide
    simp only [List.filter_cons, e0, e1, e2, Bool.false_eq_true, if_false, if_true,
      List.filter_nil, List.enum]
    simp only [List.enumFrom, List.map_cons, List.map_nil]
    rw [show removeFirstChar '[' ('[' :: m2) = m2 by rw [removeFirstChar]; simp]
    rw [removeFirstChar_eq_self h2m, splitOnChar_eq_single h3m, hc3]
    simp
  have hurl : applyParamRewrites [⟨m2, str "string", 0⟩] ('/' :: '[' :: m2)
      = '/' :: '[' :: m2 := by
    rw [applyParamRewrites, List.foldl_cons, List.foldl_nil]
    have p1 : hasSub ('/' :: '[' :: m2)
        (str "[" ++ m2 ++ str ":" ++ str "string" ++ str "]") = false := by
      apply hasSub_eq_false_of_missing (c := ':')
      · simp [str]
      · intro hm
        simp only [List.mem_cons] at hm
        rcases hm with e | e | hm
        · cases e
        · cases e
        · exact h3m hm
    have p2 : hasSub ('/' :: '[' :: m2) (str "[" ++ m2 ++ str "]") = false := by
      apply hasSub_eq_false_of_missing (c := ']')
      · simp [str]
      · intro hm
        simp only [List.mem_cons] at hm
        rcases hm with e | e | hm
        · cases e
        · cases e
        · exact h2m hm
    rw [replaceFirst_eq_self _ _ p1, replaceFirst_eq_self _ _ p2]
  have hext : stripExt (str "index.ts") = str "index" := by decide
  have hroute : routeOfFile (str "routes") [str "routes", '[' :: m2, str "index.ts"]
      ⟨none, none, true⟩ = ⟨str "GET", '/' :: '[' :: m2, [⟨m2, str "string", 0⟩], false⟩ := by
    rw [routeOfFile]
    have hrel : relAfterFirst (str "routes") [str "routes", '[' :: m2, str "index.ts"]
        = ['[' :: m2, str "index.ts"] := rfl
    rw [hrel]
    simp only [List.map_cons, List.map_nil, h4, hext]
    rw [if_pos (show List.getLast? ['[' :: m2, str "index"] = some (str "index") from rfl)]
    simp only [List.dropLast_cons₂, List.dropLast_single]
    rw [show joinSep '/' ['[' :: m2] = '[' :: m2 from rfl]
    rw [if_neg (by simp)]
    rw [hparams, hurl]
    rfl
  rw [readRoutes]
  simp only [walkList, walkOne, List.nil_append, List.append_nil, List.cons_append]
  rw [hroute]
  simp

theorem malformed_param_silently_registered_witness :
    readRoutes [] [FsTree.dir (str "[raw") [FsTree.file (str "index.ts") ⟨none, none, true⟩]]
      = [⟨str "GET", '/' :: str "[raw", [⟨(str "[raw").drop 1, str "string", 0⟩], false⟩] :=
  malformed_param_silently_registered (str "[raw") (by decide) (by decide) (by decide)
    (by decide)
